import Mathlib

/-!
Shallow embedding of `src/training/data_augmente/data_augmente.py`
(brain-tumor image data augmentation script) and verification of its
specification claims.

Machine integers are modelled as `Nat` with explicit `% 256` where the
code casts to uint8; pixel arrays are total functions from indices to
values; the filesystem effect of the run is modelled as a trace of
operations together with an optional uncaught exception.
-/

namespace DataAug

/-- PIL image modes that `Image.open` can yield for `.jpg` / `.jpeg` /
`.png` files: single-band grayscale `L`, palette `P`, grayscale+alpha
`LA`, `RGB`, `RGBA`, and `CMYK` (JPEG). -/
inductive Mode where
  | L | P | LA | RGB | RGBA | CMYK
deriving DecidableEq

/-- An in-memory PIL image: its mode, height, width, and pixel values as
a total function (row, column, band) ↦ value.  For uint8 modes every
band value lies below 256; this is stated as the predicate
`PILImage.Uint8` below rather than baked into the type. -/
structure PILImage where
  mode : Mode
  h : Nat
  w : Nat
  px : Nat → Nat → Nat → Nat

/-- All pixel values of the image fit in a uint8. -/
def PILImage.Uint8 (img : PILImage) : Prop :=
  ∀ i j k, img.px i j k < 256

/-- A numpy array as produced by `np.array` on a PIL image: either a
2-dimensional `(h, w)` array (single-band modes) or a 3-dimensional
`(h, w, c)` array. -/
inductive NpArray where
  | gray2d (h w : Nat) (px : Nat → Nat → Nat)
  | multi (h w c : Nat) (px : Nat → Nat → Nat → Nat)

/-- Height of an array. -/
def NpArray.height : NpArray → Nat
  | .gray2d h _ _ => h
  | .multi h _ _ _ => h

/-- Width of an array. -/
def NpArray.width : NpArray → Nat
  | .gray2d _ w _ => w
  | .multi _ w _ _ => w

/-- Pixel access, uniform over both array shapes (the band index is
ignored on a 2-D array). -/
def NpArray.pixel : NpArray → Nat → Nat → Nat → Nat
  | .gray2d _ _ px, i, j, _ => px i j
  | .multi _ _ _ px, i, j, k => px i j k

/-- Configuration constant `IMAGE_SIZE` (line 21 of the script). -/
def IMAGE_SIZE : Nat := 256

/-- Configuration constant `AUGMENTATION_FACTOR` (line 22). -/
def AUGMENTATION_FACTOR : Nat := 2

/-- Modelled from the PIL library: `img.resize((size, size))` keeps the
mode and resamples the pixel grid onto a `size × size` grid.  The
resampling is modelled as index rescaling (nearest sample); in
particular, as in PIL (which returns a plain copy in that case), it is
the identity on the pixels when the image already has the target
size. -/
def PILImage.resize (img : PILImage) (size : Nat) : PILImage :=
  { img with
    h := size, w := size,
    px := fun i j k => img.px (i * img.h / size) (j * img.w / size) k }

/-- Modelled from the PIL library: `img.convert("RGB")` applied to an
RGBA image drops the alpha band and keeps the R, G, B values
unchanged.  The script applies it only when `img.mode == "RGBA"`
(lines 67–68). -/
def PILImage.convertRGB (img : PILImage) : PILImage :=
  { img with mode := Mode.RGB }

/-- Modelled from numpy/PIL: `np.array(img)` yields a 2-D `(h, w)`
array for the single-band modes `L` and `P`, and an `(h, w, c)` array
with one slot per band otherwise (`LA`: 2, `RGB`: 3, `RGBA`, `CMYK`:
4). -/
def npOf (img : PILImage) : NpArray :=
  match img.mode with
  | Mode.L => NpArray.gray2d img.h img.w (fun i j => img.px i j 0)
  | Mode.P => NpArray.gray2d img.h img.w (fun i j => img.px i j 0)
  | Mode.LA => NpArray.multi img.h img.w 2 img.px
  | Mode.RGB => NpArray.multi img.h img.w 3 img.px
  | Mode.RGBA => NpArray.multi img.h img.w 4 img.px
  | Mode.CMYK => NpArray.multi img.h img.w 4 img.px

/-- Lines 72–78 of the script: grayscale (2-D) arrays are stacked into
three identical bands (`np.stack((a,)*3, axis=-1)`), 1-channel arrays
are repeated into three bands (`np.repeat(a, 3, axis=2)`), 4-channel
arrays keep only their first three bands (`a[:,:,:3]`); any other
array passes through unchanged. -/
def coerceChannels : NpArray → NpArray
  | NpArray.gray2d h w px => NpArray.multi h w 3 (fun i j _ => px i j)
  | NpArray.multi h w c px =>
    if c = 1 then NpArray.multi h w 3 (fun i j _ => px i j 0)
    else if c = 4 then NpArray.multi h w 3 px
    else NpArray.multi h w c px

/-- Lines 63–78: the in-memory normalization applied to a freshly
opened image — resize to `IMAGE_SIZE × IMAGE_SIZE`, convert RGBA to
RGB, take the numpy array, and coerce the channel layout. -/
def normalize (img : PILImage) : NpArray :=
  let r := img.resize IMAGE_SIZE
  let r := if r.mode = Mode.RGBA then r.convertRGB else r
  coerceChannels (npOf r)

/-- Modelled from the keras preprocessing layers (lines 31–36): the
pipeline `RandomFlip → RandomRotation → RandomZoom → RandomContrast`
maps a batched image to one of the same height, width and band count;
the randomly perturbed values are supplied by the oracle `rand` (the
batch dimension added by `tf.expand_dims` and removed by `tf.squeeze`
cancels and is not modelled). -/
def dataAugmentation (rand : Nat → Nat → Nat → Nat) : NpArray → NpArray
  | NpArray.gray2d h w _ => NpArray.gray2d h w (fun i j => rand i j 0)
  | NpArray.multi h w c _ => NpArray.multi h w c rand

/-- Line 89, `.astype("uint8")`: every value is reduced modulo 256. -/
def astypeUint8 : NpArray → NpArray
  | NpArray.gray2d h w px => NpArray.gray2d h w (fun i j => px i j % 256)
  | NpArray.multi h w c px => NpArray.multi h w c (fun i j k => px i j k % 256)

/-- Lines 88–89: one draw of the augmentation pipeline followed by the
uint8 cast, before artifact suppression. -/
def augRaw (rand : Nat → Nat → Nat → Nat) (a : NpArray) : NpArray :=
  astypeUint8 (dataAugmentation rand a)

/-- Line 92, `np.where(augmented_img < 5, 0, augmented_img)`: values
below 5 are replaced by 0, all others are kept. -/
def suppressArtifacts : NpArray → NpArray
  | NpArray.gray2d h w px =>
    NpArray.gray2d h w (fun i j => if px i j < 5 then 0 else px i j)
  | NpArray.multi h w c px =>
    NpArray.multi h w c (fun i j k => if px i j k < 5 then 0 else px i j k)

/-- Lines 88–92: the full augmented image written in one loop
iteration. -/
def augmentOnce (rand : Nat → Nat → Nat → Nat) (a : NpArray) : NpArray :=
  suppressArtifacts (augRaw rand a)

/-! ## Paths and the path resolver (lines 24–28)

A filesystem path is its list of components from the root; `os.path`
operations become list operations: `os.path.dirname` drops the last
component and `os.path.join` appends components. -/

/-- `os.path.dirname`. -/
def dirname (p : List String) : List String := p.dropLast

/-- Line 25: `current_dir = os.path.dirname(os.path.abspath(__file__))`,
as a function of the script's absolute path. -/
def current_dir (script : List String) : List String := dirname script

/-- Line 26: `parent_dir = os.path.dirname(current_dir)`. -/
def parent_dir (script : List String) : List String :=
  dirname (current_dir script)

/-- Line 27: `data_dir = os.path.join(parent_dir, "data", "base_data")`. -/
def data_dir (script : List String) : List String :=
  parent_dir script ++ ["data", "base_data"]

/-- Line 28:
`output_dir = os.path.join(os.path.dirname(data_dir), "data_augmente_data")`. -/
def output_dir (script : List String) : List String :=
  dirname (data_dir script) ++ ["data_augmente_data"]

/-! ## The source tree and `os.walk` -/

/-- A file of the source tree: its name, and the PIL image `Image.open`
yields for it — `none` when opening or decoding the file raises
(unreadable or corrupt file). -/
structure SrcFile where
  name : String
  content : Option PILImage

/-- A directory of the source tree: its files and its named
subdirectories. -/
inductive DirTree where
  | node (files : List SrcFile) (subdirs : List (String × DirTree))

mutual

/-- Modelled from `os.walk(p)` (top-down): the visited directories,
each with its absolute path and its files, root first, then each
subdirectory depth-first in order. -/
def walk (p : List String) : DirTree → List (List String × List SrcFile)
  | DirTree.node files subdirs => (p, files) :: walkList p subdirs

/-- The concatenated walks of a list of named subdirectories of `p`. -/
def walkList (p : List String) : List (String × DirTree) → List (List String × List SrcFile)
  | [] => []
  | (n, t) :: ts => walk (p ++ [n]) t ++ walkList p ts

end

/-- Line 61, `file.endswith(('.jpg', '.jpeg', '.png'))`: Python's
case-sensitive suffix test against the three extensions. -/
def matchesExt (name : String) : Bool :=
  ".jpg".data.isSuffixOf name.data || ".jpeg".data.isSuffixOf name.data
    || ".png".data.isSuffixOf name.data

/-- The iteration sequence of the two nested loops with the extension
filter (lines 59–61): every (directory, file) pair visited by the walk
whose file name has a recognized extension, in order. -/
def jobsOf (entries : List (List String × List SrcFile)) :
    List (List String × SrcFile) :=
  (entries.map (fun e =>
    (e.2.filter (fun f => matchesExt f.name)).map (fun f => (e.1, f)))).flatten

/-! ## The effect trace of a run -/

/-- One filesystem operation performed by the run: opening an image
file for reading, ensuring a directory exists (`create_dir`), or
writing an image file. -/
inductive FsOp where
  | read (path : List String)
  | mkdir (path : List String)
  | write (path : List String) (img : NpArray)

/-- An uncaught Python exception, identified by the file that raised
it; the script has no handler, so it aborts the run (section 7 of the
spec). -/
inductive PyError where
  | openError (path : List String)

/-- The randomness consumed by the augmentation pipeline: a fresh
oracle value per (directory, file name, loop iteration), queried at
(row, column, band). -/
def AugOracle : Type :=
  List String → String → Nat → Nat → Nat → Nat → Nat

/-- Lines 62–97, the per-file loop body: open the image (raising on a
bad file), normalize it, ensure the label directory — named after the
file's immediate parent directory — exists, write the normalized
original under the original file name, then write
`augmentation_factor` augmented copies named `aug_{i}_{file}`. -/
def processFile (outputDir : List String) (factor : Nat) (rnd : AugOracle)
    (subdir : List String) (f : SrcFile) : List FsOp × Option PyError :=
  let imagePath := subdir ++ [f.name]
  match f.content with
  | none => ([FsOp.read imagePath], some (PyError.openError imagePath))
  | some img =>
    let a := normalize img
    let labelDir := outputDir ++ [subdir.getLastD ""]
    ([FsOp.read imagePath, FsOp.mkdir labelDir,
      FsOp.write (labelDir ++ [f.name]) a] ++
      (List.range factor).map (fun i =>
        FsOp.write (labelDir ++ ["aug_" ++ toString i ++ "_" ++ f.name])
          (augmentOnce (rnd subdir f.name i) a)), none)

/-- The loop over the iteration sequence: files are processed strictly
sequentially, and the first uncaught exception aborts the rest of the
run, keeping the operations already performed. -/
def runJobs (outputDir : List String) (factor : Nat) (rnd : AugOracle) :
    List (List String × SrcFile) → List FsOp × Option PyError
  | [] => ([], none)
  | (p, f) :: rest =>
    match processFile outputDir factor rnd p f with
    | (ops, some e) => (ops, some e)
    | (ops, none) =>
      let r := runJobs outputDir factor rnd rest
      (ops ++ r.1, r.2)

/-- Lines 48–97, `augment_and_save_images(dataset_dir, output_dir,
augmentation_factor)`: create the output directory, then walk the
dataset directory and process every file with a recognized extension.
The result is the trace of filesystem operations performed, together
with the uncaught exception if one aborted the run. -/
def augment_and_save_images (datasetPath : List String) (tree : DirTree)
    (outputDir : List String) (augmentation_factor : Nat) (rnd : AugOracle) :
    List FsOp × Option PyError :=
  let r := runJobs outputDir augmentation_factor rnd
    (jobsOf (walk datasetPath tree))
  (FsOp.mkdir outputDir :: r.1, r.2)

/-- The files written by a trace, in order: path and image. -/
def writesOf (ops : List FsOp) : List (List String × NpArray) :=
  ops.filterMap (fun op => match op with
    | FsOp.write p a => some (p, a)
    | _ => none)

/-- The files opened for reading by a trace, in order. -/
def readsOf (ops : List FsOp) : List (List String) :=
  ops.filterMap (fun op => match op with
    | FsOp.read p => some p
    | _ => none)

/-- The image a path holds once the run is over: the last write to the
path, if any (a later write to the same path overwrites an earlier
one). -/
def lastWriteAt (ops : List FsOp) (p : List String) : Option NpArray :=
  ops.foldl (fun acc op => match op with
    | FsOp.write q a => if q = p then some a else acc
    | _ => acc) none

/-- Number of bands of an array: one for a 2-D array, the size of the
third axis otherwise. -/
def NpArray.channels : NpArray → Nat
  | .gray2d _ _ _ => 1
  | .multi _ _ c _ => c

/-! ## Pipeline lemmas -/

theorem normalize_of_L {img : PILImage} (h : img.mode = Mode.L) :
    normalize img =
      NpArray.multi IMAGE_SIZE IMAGE_SIZE 3
        (fun i j _ => (img.resize IMAGE_SIZE).px i j 0) := by
  obtain ⟨m, ih, iw, ipx⟩ := img
  cases h
  rfl

theorem normalize_of_P {img : PILImage} (h : img.mode = Mode.P) :
    normalize img =
      NpArray.multi IMAGE_SIZE IMAGE_SIZE 3
        (fun i j _ => (img.resize IMAGE_SIZE).px i j 0) := by
  obtain ⟨m, ih, iw, ipx⟩ := img
  cases h
  rfl

theorem normalize_of_LA {img : PILImage} (h : img.mode = Mode.LA) :
    normalize img =
      NpArray.multi IMAGE_SIZE IMAGE_SIZE 2 (img.resize IMAGE_SIZE).px := by
  obtain ⟨m, ih, iw, ipx⟩ := img
  cases h
  rfl

theorem normalize_of_RGB {img : PILImage} (h : img.mode = Mode.RGB) :
    normalize img =
      NpArray.multi IMAGE_SIZE IMAGE_SIZE 3 (img.resize IMAGE_SIZE).px := by
  obtain ⟨m, ih, iw, ipx⟩ := img
  cases h
  rfl

theorem normalize_of_RGBA {img : PILImage} (h : img.mode = Mode.RGBA) :
    normalize img =
      NpArray.multi IMAGE_SIZE IMAGE_SIZE 3 (img.resize IMAGE_SIZE).px := by
  obtain ⟨m, ih, iw, ipx⟩ := img
  cases h
  rfl

theorem normalize_of_CMYK {img : PILImage} (h : img.mode = Mode.CMYK) :
    normalize img =
      NpArray.multi IMAGE_SIZE IMAGE_SIZE 3 (img.resize IMAGE_SIZE).px := by
  obtain ⟨m, ih, iw, ipx⟩ := img
  cases h
  rfl

/-- Every non-`LA` input normalizes to a 3-band `256 × 256` array. -/
theorem normalize_shape_of_not_LA {img : PILImage} (h : img.mode ≠ Mode.LA) :
    ∃ q, normalize img = NpArray.multi IMAGE_SIZE IMAGE_SIZE 3 q := by
  cases hm : img.mode
  · exact ⟨_, normalize_of_L hm⟩
  · exact ⟨_, normalize_of_P hm⟩
  · exact absurd hm h
  · exact ⟨_, normalize_of_RGB hm⟩
  · exact ⟨_, normalize_of_RGBA hm⟩
  · exact ⟨_, normalize_of_CMYK hm⟩

/-- Normalization keeps pixel values inside the uint8 range. -/
theorem normalize_uint8 {img : PILImage} (h8 : img.Uint8) :
    ∀ i j k, (normalize img).pixel i j k < 256 := by
  intro i j k
  cases hm : img.mode
  · rw [normalize_of_L hm]; exact h8 _ _ _
  · rw [normalize_of_P hm]; exact h8 _ _ _
  · rw [normalize_of_LA hm]; exact h8 _ _ _
  · rw [normalize_of_RGB hm]; exact h8 _ _ _
  · rw [normalize_of_RGBA hm]; exact h8 _ _ _
  · rw [normalize_of_CMYK hm]; exact h8 _ _ _

/-- One augmentation draw on a 3-D array: same shape, each value a
thresholded uint8 oracle value. -/
theorem augmentOnce_multi (rand : Nat → Nat → Nat → Nat) (h w c : Nat)
    (q : Nat → Nat → Nat → Nat) :
    augmentOnce rand (NpArray.multi h w c q) =
      NpArray.multi h w c
        (fun i j k => if rand i j k % 256 < 5 then 0 else rand i j k % 256) :=
  rfl

/-- Augmented pixel values are uint8. -/
theorem augmentOnce_uint8 (rand : Nat → Nat → Nat → Nat) (a : NpArray) :
    ∀ i j k, (augmentOnce rand a).pixel i j k < 256 := by
  intro i j k
  cases a <;> simp only [augmentOnce, augRaw, dataAugmentation, astypeUint8,
    suppressArtifacts, NpArray.pixel] <;> split <;> omega

/-! ## Claims about the in-memory pipeline -/

/-- Claim C3: in every augmented output no pixel value lies strictly
between 0 and 5; a pipeline value below 5 is replaced by 0 and every
other pipeline value is written out unchanged. -/
theorem C3_artifact_suppression (rand : Nat → Nat → Nat → Nat) (a : NpArray)
    (i j k : Nat) :
    ¬(0 < (augmentOnce rand a).pixel i j k ∧
        (augmentOnce rand a).pixel i j k < 5) ∧
      (((augRaw rand a).pixel i j k < 5 ∧
          (augmentOnce rand a).pixel i j k = 0) ∨
        (5 ≤ (augRaw rand a).pixel i j k ∧
          (augmentOnce rand a).pixel i j k = (augRaw rand a).pixel i j k)) := by
  cases a <;>
    simp only [augmentOnce, augRaw, dataAugmentation, astypeUint8,
      suppressArtifacts, NpArray.pixel] <;>
    split <;> omega

/-- Claim C6: normalization is a no-op on an image that is already a
`256 × 256` 3-band RGB uint8 image: the array it returns is exactly
the image's own pixel array. -/
theorem C6_normalize_idempotent (img : PILImage) (_h8 : img.Uint8)
    (hm : img.mode = Mode.RGB) (hh : img.h = IMAGE_SIZE)
    (hw : img.w = IMAGE_SIZE) :
    normalize img = NpArray.multi IMAGE_SIZE IMAGE_SIZE 3 img.px := by
  rw [normalize_of_RGB hm]
  have hpx : (img.resize IMAGE_SIZE).px = img.px := by
    funext i j k
    simp only [PILImage.resize, hh, hw, IMAGE_SIZE]
    rw [Nat.mul_div_cancel _ (by omega), Nat.mul_div_cancel _ (by omega)]
  rw [hpx]

/-- Witness for C6 at a concrete constant RGB image. -/
theorem C6_normalize_idempotent_witness :
    normalize ⟨Mode.RGB, 256, 256, fun _ _ _ => 7⟩ =
      NpArray.multi IMAGE_SIZE IMAGE_SIZE 3 (fun _ _ _ => 7) :=
  C6_normalize_idempotent ⟨Mode.RGB, 256, 256, fun _ _ _ => 7⟩
    (fun _ _ _ => by show (7 : Nat) < 256; omega) rfl rfl rfl

/-- Claim C5 (amended): the channel coercion turns a grayscale input
into three identical bands holding its (resized) gray band, and an
RGBA input into the first three (R, G, B) of its (resized) bands with
alpha dropped — but it does not coerce *every* input to 3 bands: a
2-band (`LA`) input passes through unchanged. -/
theorem C5_channel_coercion (img : PILImage) :
    (img.mode = Mode.L →
      (∃ q, normalize img = NpArray.multi IMAGE_SIZE IMAGE_SIZE 3 q) ∧
        ∀ i j k, k < 3 →
          (normalize img).pixel i j k = (img.resize IMAGE_SIZE).px i j 0) ∧
    (img.mode = Mode.RGBA →
      (∃ q, normalize img = NpArray.multi IMAGE_SIZE IMAGE_SIZE 3 q) ∧
        ∀ i j k, k < 3 →
          (normalize img).pixel i j k = (img.resize IMAGE_SIZE).px i j k) := by
  constructor
  · intro hm
    rw [normalize_of_L hm]
    exact ⟨⟨_, rfl⟩, fun i j k _ => rfl⟩
  · intro hm
    rw [normalize_of_RGBA hm]
    exact ⟨⟨_, rfl⟩, fun i j k _ => rfl⟩

/-- Witness for C5 at a concrete constant grayscale image. -/
theorem C5_channel_coercion_witness :
    ∃ q, normalize ⟨Mode.L, 512, 512, fun _ _ _ => 3⟩ =
      NpArray.multi IMAGE_SIZE IMAGE_SIZE 3 q :=
  ((C5_channel_coercion ⟨Mode.L, 512, 512, fun _ _ _ => 3⟩).1 rfl).1

/-- A `512 × 512` LA (grayscale + alpha) PNG image, as `Image.open`
yields it; used to exhibit the 2-band gap of the channel coercion. -/
def laImg : PILImage := ⟨Mode.LA, 512, 512, fun i j k => i + j + k⟩

/-- Counterexample to C5 as stated: the LA input `laImg` is neither
grayscale nor RGBA, and normalization leaves it with 2 bands, so
normalization does not coerce every input image to 3 channels. -/
theorem C5_counterexample :
    laImg.mode ≠ Mode.L ∧ laImg.mode ≠ Mode.RGBA ∧
      (normalize laImg).channels = 2 ∧ (normalize laImg).channels ≠ 3 := by
  refine ⟨by decide, by decide, ?_, ?_⟩ <;> rw [normalize_of_LA rfl] <;> decide

/-! ## Claim C4: the path resolver -/

/-- Claim C4 (amended): the resolver, a pure function of the script's
own absolute path, reads from `data_dir = <script_parent>/data/base_data`
and writes to the *sibling* of `data_dir` named `data_augmente_data`,
i.e. `<script_parent>/data/data_augmente_data` — which lies inside
`data`, not directly under the repository root. -/
theorem C4_path_resolver (s : List String) :
    data_dir s = dirname (dirname s) ++ ["data", "base_data"] ∧
    output_dir s = dirname (dirname s) ++ ["data", "data_augmente_data"] ∧
    dirname (output_dir s) = dirname (data_dir s) := by
  have h1 : data_dir s = (dirname (dirname s) ++ ["data"]) ++ ["base_data"] := by
    simp [data_dir, parent_dir, current_dir]
  have h2 : dirname (data_dir s) = dirname (dirname s) ++ ["data"] := by
    rw [h1]; exact List.dropLast_concat
  have h3 : output_dir s = (dirname (dirname s) ++ ["data"]) ++ ["data_augmente_data"] := by
    rw [output_dir, h2]
  refine ⟨by simpa using h1, by simpa using h3, ?_⟩
  rw [h3, h2]
  exact List.dropLast_concat

/-- Counterexample to C4 as stated: for a concrete script location the
output directory is not the `data_augmente_data` directory of the
repository root `R` (the directory with `data_dir = R/data/base_data`),
but `R/data/data_augmente_data`. -/
theorem C4_counterexample :
    data_dir ["repo", "training", "data_augmente", "data_augmente.py"] =
      ["repo", "training", "data", "base_data"] ∧
    output_dir ["repo", "training", "data_augmente", "data_augmente.py"] ≠
      ["repo", "training", "data_augmente_data"] ∧
    output_dir ["repo", "training", "data_augmente", "data_augmente.py"] =
      ["repo", "training", "data", "data_augmente_data"] := by
  refine ⟨by decide, by decide, by decide⟩

/-! ## Walk and trace lemmas -/

mutual

/-- Every directory the walk visits lies under the directory walked. -/
theorem walk_path_le (p : List String) (t : DirTree) :
    ∀ e ∈ walk p t, p <+: e.1 := by
  cases t with
  | node files subdirs =>
    intro e he
    rw [walk] at he
    rcases List.mem_cons.mp he with h | h
    · subst h; exact List.prefix_rfl
    · exact walkList_path_le p subdirs e h

/-- Every directory visited under a list of subdirectories of `p` lies
under `p`. -/
theorem walkList_path_le (p : List String) (ts : List (String × DirTree)) :
    ∀ e ∈ walkList p ts, p <+: e.1 := by
  cases ts with
  | nil => intro e he; rw [walkList] at he; exact absurd he (List.not_mem_nil e)
  | cons nt rest =>
    obtain ⟨n, t⟩ := nt
    intro e he
    rw [walkList] at he
    rcases List.mem_append.mp he with h | h
    · exact (List.prefix_append p [n]).trans (walk_path_le (p ++ [n]) t e h)
    · exact walkList_path_le p rest e h

end

/-- Every job of the iteration sequence comes from a visited directory
and one of its files with a recognized extension. -/
theorem mem_jobsOf {entries : List (List String × List SrcFile)}
    {jb : List String × SrcFile} (h : jb ∈ jobsOf entries) :
    ∃ e ∈ entries, jb.1 = e.1 ∧ jb.2 ∈ e.2 ∧ matchesExt jb.2.name = true := by
  unfold jobsOf at h
  rcases List.mem_flatten.mp h with ⟨l, hl, hjb⟩
  rcases List.mem_map.mp hl with ⟨e, he, rfl⟩
  rcases List.mem_map.mp hjb with ⟨f, hf, rfl⟩
  rcases List.mem_filter.mp hf with ⟨hf2, hmatch⟩
  exact ⟨e, he, rfl, hf2, hmatch⟩

/-- Traces are read off with these step equations. -/
@[simp] theorem readsOf_nil : readsOf [] = [] := rfl

@[simp] theorem readsOf_cons_read (p : List String) (l : List FsOp) :
    readsOf (FsOp.read p :: l) = p :: readsOf l := rfl

@[simp] theorem readsOf_cons_mkdir (p : List String) (l : List FsOp) :
    readsOf (FsOp.mkdir p :: l) = readsOf l := rfl

@[simp] theorem readsOf_cons_write (p : List String) (a : NpArray)
    (l : List FsOp) : readsOf (FsOp.write p a :: l) = readsOf l := rfl

@[simp] theorem readsOf_append (l l' : List FsOp) :
    readsOf (l ++ l') = readsOf l ++ readsOf l' :=
  List.filterMap_append l l' _

/-- A batch of writes contributes no reads. -/
theorem readsOf_map_write {α : Type} (g : α → List String) (b : α → NpArray)
    (l : List α) :
    readsOf (l.map (fun i => FsOp.write (g i) (b i))) = [] := by
  induction l with
  | nil => rfl
  | cons x l ih => simpa using ih

/-- Every write a run performs stores either the normalized original or
one of the first `k` augmented draws of a job's image, at a path of the
form `out ++ [label, name]`. -/
theorem write_mem_runJobs {out : List String} {k : Nat} {rnd : AugOracle}
    {jobs : List (List String × SrcFile)} {q : List String} {a : NpArray}
    (h : FsOp.write q a ∈ (runJobs out k rnd jobs).1) :
    ∃ jb ∈ jobs, ∃ img, jb.2.content = some img ∧
      (∃ nm : String, q = out ++ [jb.1.getLastD "", nm]) ∧
      (a = normalize img ∨
        ∃ i, i < k ∧ a = augmentOnce (rnd jb.1 jb.2.name i) (normalize img)) := by
  induction jobs with
  | nil =>
    rw [runJobs] at h
    exact absurd h (List.not_mem_nil _)
  | cons jb rest ih =>
    obtain ⟨jp, jf⟩ := jb
    cases hc : jf.content with
    | none =>
      rw [runJobs] at h
      simp only [processFile, hc, List.mem_singleton] at h
      exact FsOp.noConfusion h
    | some img =>
      rw [runJobs] at h
      simp only [processFile, hc] at h
      simp only [List.mem_append, List.mem_cons, List.mem_map, List.mem_range,
        List.not_mem_nil, or_false] at h
      rcases h with ((h | h | h) | ⟨i, hi, hEq⟩) | h
      · exact FsOp.noConfusion h
      · exact FsOp.noConfusion h
      · injection h with hq ha
        exact ⟨(jp, jf), List.mem_cons_self _ _, img, hc,
          ⟨jf.name, by rw [hq]; simp⟩, Or.inl ha⟩
      · injection hEq with hq ha
        exact ⟨(jp, jf), List.mem_cons_self _ _, img, hc,
          ⟨"aug_" ++ toString i ++ "_" ++ jf.name, by rw [← hq]; simp⟩,
          Or.inr ⟨i, hi, ha.symm⟩⟩
      · rcases ih h with ⟨jb', hjb', rest'⟩
        exact ⟨jb', List.mem_cons_of_mem _ hjb', rest'⟩

/-- Every read a run performs opens a job's file at its source path. -/
theorem read_mem_runJobs {out : List String} {k : Nat} {rnd : AugOracle}
    {jobs : List (List String × SrcFile)} {q : List String}
    (h : FsOp.read q ∈ (runJobs out k rnd jobs).1) :
    ∃ jb ∈ jobs, q = jb.1 ++ [jb.2.name] := by
  induction jobs with
  | nil =>
    rw [runJobs] at h
    exact absurd h (List.not_mem_nil _)
  | cons jb rest ih =>
    obtain ⟨jp, jf⟩ := jb
    cases hc : jf.content with
    | none =>
      rw [runJobs] at h
      simp only [processFile, hc, List.mem_singleton] at h
      injection h with hq
      exact ⟨(jp, jf), List.mem_cons_self _ _, hq⟩
    | some img =>
      rw [runJobs] at h
      simp only [processFile, hc] at h
      simp only [List.mem_append, List.mem_cons, List.mem_map, List.mem_range,
        List.not_mem_nil, or_false] at h
      rcases h with ((h | h | h) | ⟨i, hi, hEq⟩) | h
      · injection h with hq
        exact ⟨(jp, jf), List.mem_cons_self _ _, hq⟩
      · exact FsOp.noConfusion h
      · exact FsOp.noConfusion h
      · exact FsOp.noConfusion hEq
      · rcases ih h with ⟨jb', hjb', rest'⟩
        exact ⟨jb', List.mem_cons_of_mem _ hjb', rest'⟩

/-- Every directory-creation a run performs targets a label directory
directly under the output directory. -/
theorem mkdir_mem_runJobs {out : List String} {k : Nat} {rnd : AugOracle}
    {jobs : List (List String × SrcFile)} {q : List String}
    (h : FsOp.mkdir q ∈ (runJobs out k rnd jobs).1) :
    ∃ jb ∈ jobs, q = out ++ [jb.1.getLastD ""] := by
  induction jobs with
  | nil =>
    rw [runJobs] at h
    exact absurd h (List.not_mem_nil _)
  | cons jb rest ih =>
    obtain ⟨jp, jf⟩ := jb
    cases hc : jf.content with
    | none =>
      rw [runJobs] at h
      simp only [processFile, hc, List.mem_singleton] at h
      exact FsOp.noConfusion h
    | some img =>
      rw [runJobs] at h
      simp only [processFile, hc] at h
      simp only [List.mem_append, List.mem_cons, List.mem_map, List.mem_range,
        List.not_mem_nil, or_false] at h
      rcases h with ((h | h | h) | ⟨i, hi, hEq⟩) | h
      · exact FsOp.noConfusion h
      · injection h with hq
        exact ⟨(jp, jf), List.mem_cons_self _ _, hq⟩
      · exact FsOp.noConfusion h
      · exact FsOp.noConfusion hEq
      · rcases ih h with ⟨jb', hjb', rest'⟩
        exact ⟨jb', List.mem_cons_of_mem _ hjb', rest'⟩

/-- A job's trace opens exactly its own file. -/
theorem readsOf_processFile (out : List String) (k : Nat) (rnd : AugOracle)
    (p : List String) (f : SrcFile) :
    readsOf (processFile out k rnd p f).1 = [p ++ [f.name]] := by
  cases hc : f.content with
  | none => simp [processFile, hc]
  | some img => simp [processFile, hc, readsOf_map_write]

/-- The reads of a run are an initial segment of the source paths of
the iteration sequence (a proper one only when an error aborted the
run). -/
theorem readsOf_runJobs_isPre (out : List String) (k : Nat) (rnd : AugOracle)
    (jobs : List (List String × SrcFile)) :
    readsOf (runJobs out k rnd jobs).1 <+:
      jobs.map (fun jb => jb.1 ++ [jb.2.name]) := by
  induction jobs with
  | nil => rw [runJobs]; simp
  | cons jb rest ih =>
    obtain ⟨jp, jf⟩ := jb
    rw [runJobs]
    cases hc : jf.content with
    | none =>
      simp only [processFile, hc, readsOf_cons_read, readsOf_nil, List.map_cons]
      exact List.cons_prefix_cons.mpr ⟨rfl, List.nil_prefix⟩
    | some img =>
      simp only [processFile, hc, List.map_cons, readsOf_append,
        readsOf_cons_read, readsOf_cons_mkdir, readsOf_cons_write, readsOf_nil,
        readsOf_map_write, List.nil_append, List.append_nil, List.cons_append]
      exact List.cons_prefix_cons.mpr ⟨rfl, ih⟩

/-- On a run with no error, every file of the iteration sequence is
read, each exactly once, in walk order. -/
theorem readsOf_runJobs_of_ok (out : List String) (k : Nat) (rnd : AugOracle)
    (jobs : List (List String × SrcFile))
    (h : (runJobs out k rnd jobs).2 = none) :
    readsOf (runJobs out k rnd jobs).1 =
      jobs.map (fun jb => jb.1 ++ [jb.2.name]) := by
  induction jobs with
  | nil => rw [runJobs]; simp
  | cons jb rest ih =>
    obtain ⟨jp, jf⟩ := jb
    rw [runJobs] at h ⊢
    cases hc : jf.content with
    | none =>
      simp only [processFile, hc] at h
      exact Option.noConfusion h
    | some img =>
      simp only [processFile, hc] at h
      simp only [processFile, hc, List.map_cons, readsOf_append,
        readsOf_cons_read, readsOf_cons_mkdir, readsOf_cons_write, readsOf_nil,
        readsOf_map_write, List.nil_append, List.append_nil, List.cons_append]
      rw [ih h]

/-- Writes are read off a trace with these step equations. -/
@[simp] theorem writesOf_nil : writesOf [] = [] := rfl

@[simp] theorem writesOf_cons_read (p : List String) (l : List FsOp) :
    writesOf (FsOp.read p :: l) = writesOf l := rfl

@[simp] theorem writesOf_cons_mkdir (p : List String) (l : List FsOp) :
    writesOf (FsOp.mkdir p :: l) = writesOf l := rfl

@[simp] theorem writesOf_cons_write (p : List String) (a : NpArray)
    (l : List FsOp) : writesOf (FsOp.write p a :: l) = (p, a) :: writesOf l :=
  rfl

@[simp] theorem writesOf_append (l l' : List FsOp) :
    writesOf (l ++ l') = writesOf l ++ writesOf l' :=
  List.filterMap_append l l' _

/-- A batch of writes is recorded one to one. -/
theorem writesOf_map_write {α : Type} (g : α → List String) (b : α → NpArray)
    (l : List α) :
    writesOf (l.map (fun i => FsOp.write (g i) (b i))) =
      l.map (fun i => (g i, b i)) := by
  induction l with
  | nil => rfl
  | cons x l ih => simpa using ih

/-- Property `P` holds of every image of the walked source tree. -/
def EveryImage (p : List String) (t : DirTree) (P : PILImage → Prop) : Prop :=
  ∀ e ∈ walk p t, ∀ f ∈ e.2, ∀ img, f.content = some img → P img

/-- Claim C1 (amended): on a source tree of uint8 images none of which
decodes to a 2-band (`LA` grayscale+alpha) array, every image the run
writes — the normalized original and every augmented copy alike — is a
`256 × 256` array with exactly 3 channels and uint8 pixel values,
whatever the input sizes and modes; an `LA` input, however, is written
with its 2 bands kept (see the counterexample). -/
theorem C1_written_images_shape (p : List String) (t : DirTree)
    (out : List String) (k : Nat) (rnd : AugOracle)
    (h8 : EveryImage p t PILImage.Uint8)
    (hLA : EveryImage p t (fun img => img.mode ≠ Mode.LA)) :
    ∀ q a, FsOp.write q a ∈ (augment_and_save_images p t out k rnd).1 →
      (∃ f, a = NpArray.multi 256 256 3 f) ∧ ∀ i j c, a.pixel i j c < 256 := by
  intro q a hmem
  rw [augment_and_save_images] at hmem
  rcases List.mem_cons.mp hmem with hmem | hmem
  · exact FsOp.noConfusion hmem
  rcases write_mem_runJobs hmem with ⟨jb, hjb, img, hcon, _, hform⟩
  rcases mem_jobsOf hjb with ⟨e, he, _, hf, _⟩
  have h8i : img.Uint8 := h8 e he jb.2 hf img hcon
  have hLAi : img.mode ≠ Mode.LA := hLA e he jb.2 hf img hcon
  rcases normalize_shape_of_not_LA hLAi with ⟨q0, hq0⟩
  rcases hform with rfl | ⟨i, _, rfl⟩
  · exact ⟨⟨q0, hq0⟩, fun i j c => normalize_uint8 h8i i j c⟩
  · exact ⟨⟨_, by rw [hq0]; exact augmentOnce_multi _ _ _ _ _⟩,
      fun i2 j2 c2 => augmentOnce_uint8 _ _ i2 j2 c2⟩

/-- A constant-valued oracle for concrete runs. -/
def zeroRnd : AugOracle := fun _ _ _ _ _ _ => 0

/-- A source tree holding a single LA image file. -/
def laTree : DirTree := DirTree.node [⟨"la.png", some laImg⟩] []

/-- Counterexample to C1 as stated: running on a tree holding the LA
image `laImg`, the run writes its normalized original — a 2-band
array, not a 3-channel one. -/
theorem C1_counterexample :
    FsOp.write ["out", "base_data", "la.png"] (normalize laImg) ∈
        (augment_and_save_images ["data", "base_data"] laTree ["out"] 2
          zeroRnd).1 ∧
      (normalize laImg).channels = 2 ∧ (normalize laImg).channels ≠ 3 := by
  refine ⟨?_, ?_, ?_⟩
  · simp [augment_and_save_images, runJobs, processFile, jobsOf, walk,
      walkList, laTree, matchesExt]
  · rw [normalize_of_LA rfl]; rfl
  · rw [normalize_of_LA rfl]; decide

/-- A `512 × 512` RGB image with in-range pixel values, for concrete
runs. -/
def rgbImg : PILImage := ⟨Mode.RGB, 512, 512, fun i j k => (i + j + k) % 200⟩

/-- Claim C2: processing one input image file writes exactly
`augmentation_factor + 1` files into the file's label directory: the
normalized original under the original file name, then one augmented
copy named `aug_{i}_{file}` for each `i` below `augmentation_factor`,
in that order. -/
theorem C2_writes_per_file (out : List String) (factor : Nat)
    (rnd : AugOracle) (subdir : List String) (f : SrcFile) (img : PILImage)
    (h : f.content = some img) :
    (processFile out factor rnd subdir f).2 = none ∧
      writesOf (processFile out factor rnd subdir f).1 =
        (out ++ [subdir.getLastD "", f.name], normalize img) ::
          (List.range factor).map (fun i =>
            (out ++ [subdir.getLastD "", "aug_" ++ toString i ++ "_" ++
                f.name],
              augmentOnce (rnd subdir f.name i) (normalize img))) ∧
      (writesOf (processFile out factor rnd subdir f).1).length =
        factor + 1 := by
  have h2 : writesOf (processFile out factor rnd subdir f).1 =
      (out ++ [subdir.getLastD "", f.name], normalize img) ::
        (List.range factor).map (fun i =>
          (out ++ [subdir.getLastD "", "aug_" ++ toString i ++ "_" ++
              f.name],
            augmentOnce (rnd subdir f.name i) (normalize img))) := by
    simp [processFile, h, writesOf_map_write]
  refine ⟨by simp [processFile, h], h2, ?_⟩
  rw [h2]
  simp

/-- Witness for C2 on a concrete file and directory. -/
theorem C2_witness :
    (processFile ["o"] 2 zeroRnd ["d", "lbl"] ⟨"b.png", some rgbImg⟩).2 =
        none ∧
      writesOf
          (processFile ["o"] 2 zeroRnd ["d", "lbl"]
            ⟨"b.png", some rgbImg⟩).1 =
        (["o", "lbl", "b.png"], normalize rgbImg) ::
          (List.range 2).map (fun i =>
            (["o", "lbl", "aug_" ++ toString i ++ "_" ++ "b.png"],
              augmentOnce (zeroRnd ["d", "lbl"] "b.png" i)
                (normalize rgbImg))) ∧
      (writesOf
          (processFile ["o"] 2 zeroRnd ["d", "lbl"]
            ⟨"b.png", some rgbImg⟩).1).length = 2 + 1 :=
  C2_writes_per_file ["o"] 2 zeroRnd ["d", "lbl"] ⟨"b.png", some rgbImg⟩
    rgbImg rfl

/-- A source tree holding a single well-formed RGB image file. -/
def okTree : DirTree := DirTree.node [⟨"a.jpg", some rgbImg⟩] []

/-- Witness for C1 on a run over `okTree`. -/
theorem C1_witness :
    (∃ f, normalize rgbImg = NpArray.multi 256 256 3 f) ∧
      ∀ i j c, (normalize rgbImg).pixel i j c < 256 :=
  C1_written_images_shape ["data", "base_data"] okTree ["out"] 2 zeroRnd
    (by
      intro e he f hf img hc
      simp only [okTree, walk, walkList] at he
      rcases List.mem_singleton.mp he with rfl
      rcases List.mem_singleton.mp hf with rfl
      injection hc with h
      subst h
      intro i j k
      show (i + j + k) % 200 < 256
      omega)
    (by
      intro e he f hf img hc
      simp only [okTree, walk, walkList] at he
      rcases List.mem_singleton.mp he with rfl
      rcases List.mem_singleton.mp hf with rfl
      injection hc with h
      subst h
      show Mode.RGB ≠ Mode.LA
      decide)
    ["out", "base_data", "a.jpg"] (normalize rgbImg)
    (by
      simp [augment_and_save_images, runJobs, processFile, jobsOf, walk,
        walkList, okTree, matchesExt])

/-! ## Claim C7: the run touches only the output tree -/

/-- Two directories neither of which lies under the other stay apart:
no path under the second lies under the first. -/
theorem no_cross {p out : List String} (h1 : ¬ p <+: out)
    (h2 : ¬ out <+: p) (rest : List String) : ¬ p <+: out ++ rest := by
  intro hc
  rcases List.prefix_or_prefix_of_prefix hc (List.prefix_append out rest)
    with h | h
  · exact h1 h
  · exact h2 h

/-- Claim C7: provided the dataset and output directories do not
contain one another, a run writes and creates directories only under
the output directory and never under the source tree, reads only from
the source tree, reads the matching files in walk order at most once
each — exactly once when no error aborts the run. -/
theorem C7_frame (p : List String) (t : DirTree) (out : List String)
    (k : Nat) (rnd : AugOracle) (h1 : ¬ p <+: out) (h2 : ¬ out <+: p) :
    (∀ q a, FsOp.write q a ∈ (augment_and_save_images p t out k rnd).1 →
      out <+: q ∧ ¬ p <+: q) ∧
    (∀ q, FsOp.mkdir q ∈ (augment_and_save_images p t out k rnd).1 →
      out <+: q ∧ ¬ p <+: q) ∧
    (∀ q, FsOp.read q ∈ (augment_and_save_images p t out k rnd).1 →
      p <+: q) ∧
    readsOf (augment_and_save_images p t out k rnd).1 <+:
      (jobsOf (walk p t)).map (fun jb => jb.1 ++ [jb.2.name]) ∧
    ((augment_and_save_images p t out k rnd).2 = none →
      readsOf (augment_and_save_images p t out k rnd).1 =
        (jobsOf (walk p t)).map (fun jb => jb.1 ++ [jb.2.name])) ∧
    (((jobsOf (walk p t)).map (fun jb => jb.1 ++ [jb.2.name])).Nodup →
      (readsOf (augment_and_save_images p t out k rnd).1).Nodup) := by
  have htrace : (augment_and_save_images p t out k rnd).1 =
      FsOp.mkdir out :: (runJobs out k rnd (jobsOf (walk p t))).1 := rfl
  have herr : (augment_and_save_images p t out k rnd).2 =
      (runJobs out k rnd (jobsOf (walk p t))).2 := rfl
  have hreads : readsOf (augment_and_save_images p t out k rnd).1 =
      readsOf (runJobs out k rnd (jobsOf (walk p t))).1 := by
    rw [htrace, readsOf_cons_mkdir]
  refine ⟨?_, ?_, ?_, ?_, ?_, ?_⟩
  · intro q a hmem
    rw [htrace] at hmem
    rcases List.mem_cons.mp hmem with hmem | hmem
    · exact FsOp.noConfusion hmem
    rcases write_mem_runJobs hmem with ⟨jb, _, img, _, ⟨nm, rfl⟩, _⟩
    exact ⟨List.prefix_append out _, no_cross h1 h2 _⟩
  · intro q hmem
    rw [htrace] at hmem
    rcases List.mem_cons.mp hmem with hmem | hmem
    · injection hmem with hq
      subst hq
      exact ⟨List.prefix_rfl, h1⟩
    rcases mkdir_mem_runJobs hmem with ⟨jb, _, rfl⟩
    exact ⟨List.prefix_append out _, no_cross h1 h2 _⟩
  · intro q hmem
    rw [htrace] at hmem
    rcases List.mem_cons.mp hmem with hmem | hmem
    · exact FsOp.noConfusion hmem
    rcases read_mem_runJobs hmem with ⟨jb, hjb, rfl⟩
    rcases mem_jobsOf hjb with ⟨e, he, h1eq, _, _⟩
    rw [h1eq]
    exact (walk_path_le p t e he).trans (List.prefix_append e.1 _)
  · rw [hreads]
    exact readsOf_runJobs_isPre out k rnd (jobsOf (walk p t))
  · intro hok
    rw [hreads]
    exact readsOf_runJobs_of_ok out k rnd (jobsOf (walk p t)) (herr ▸ hok)
  · intro hnd
    rw [hreads]
    exact (readsOf_runJobs_isPre out k rnd
      (jobsOf (walk p t))).sublist.nodup hnd

/-- Witness for C7: with the script's actual directories, the single
read of a run over `okTree` stays under the dataset directory. -/
theorem C7_witness :
    ["repo", "training", "data", "base_data"] <+:
      ["repo", "training", "data", "base_data", "a.jpg"] :=
  (C7_frame ["repo", "training", "data", "base_data"] okTree
      ["repo", "training", "data", "data_augmente_data"] 2 zeroRnd
      (by decide) (by decide)).2.2.1
    ["repo", "training", "data", "base_data", "a.jpg"]
    (by
      simp [augment_and_save_images, runJobs, processFile, jobsOf, walk,
        walkList, okTree, matchesExt])

/-! ## Claim C8: an exception aborts the whole run -/

/-- The run aborts at the first failing job: the traces of the earlier
jobs are kept, the failing job contributes only its read, and the
remaining jobs contribute nothing. -/
theorem runJobs_abort (out : List String) (k : Nat) (rnd : AugOracle)
    (good : List (List String × SrcFile)) (bad : List String × SrcFile)
    (rest : List (List String × SrcFile))
    (hgood : ∀ jb ∈ good, (jb.2.content).isSome)
    (hbad : bad.2.content = none) :
    runJobs out k rnd (good ++ bad :: rest) =
      ((runJobs out k rnd good).1 ++ [FsOp.read (bad.1 ++ [bad.2.name])],
        some (PyError.openError (bad.1 ++ [bad.2.name]))) := by
  induction good with
  | nil =>
    obtain ⟨bp, bf⟩ := bad
    simp only at hbad
    simp [runJobs, processFile, hbad]
  | cons j rest' ih =>
    obtain ⟨jp, jf⟩ := j
    have hs := hgood (jp, jf) (List.mem_cons_self _ _)
    rcases Option.isSome_iff_exists.mp hs with ⟨img, himg⟩
    simp only at himg
    have ihr := ih (fun jb hjb => hgood jb (List.mem_cons_of_mem _ hjb))
    simp only [List.cons_append, runJobs, processFile, himg]
    simp only [List.append_eq]
    rw [ihr]
    simp [runJobs, processFile, himg, List.append_assoc]

/-- Claim C8: if a file of the iteration sequence fails to open (for
example an unreadable or corrupt image), the exception propagates and
the run stops there: the trace is exactly the output-directory
creation, the traces of the files processed before the failure, and
the failing read — no later file is touched and nothing is written for
the failing file, while everything written before the failure
stays. -/
theorem C8_error_aborts_run (p : List String) (t : DirTree)
    (out : List String) (k : Nat) (rnd : AugOracle)
    (good : List (List String × SrcFile)) (bad : List String × SrcFile)
    (rest : List (List String × SrcFile))
    (hsplit : jobsOf (walk p t) = good ++ bad :: rest)
    (hgood : ∀ jb ∈ good, (jb.2.content).isSome)
    (hbad : bad.2.content = none) :
    (augment_and_save_images p t out k rnd).2 =
        some (PyError.openError (bad.1 ++ [bad.2.name])) ∧
      (augment_and_save_images p t out k rnd).1 =
        FsOp.mkdir out ::
          ((runJobs out k rnd good).1 ++
            [FsOp.read (bad.1 ++ [bad.2.name])]) ∧
      writesOf (augment_and_save_images p t out k rnd).1 =
        writesOf (runJobs out k rnd good).1 := by
  have habort := runJobs_abort out k rnd good bad rest hgood hbad
  have htrace : (augment_and_save_images p t out k rnd).1 =
      FsOp.mkdir out :: (runJobs out k rnd (jobsOf (walk p t))).1 := rfl
  have herr : (augment_and_save_images p t out k rnd).2 =
      (runJobs out k rnd (jobsOf (walk p t))).2 := rfl
  rw [htrace, herr, hsplit, habort]
  refine ⟨rfl, rfl, ?_⟩
  simp

/-- A source tree holding a good file, then an unreadable file, then
one more good file. -/
def badTree : DirTree :=
  DirTree.node
    [⟨"g.jpg", some rgbImg⟩, ⟨"bad.jpg", none⟩, ⟨"h.png", some rgbImg⟩] []

/-- Witness for C8 on a run over `badTree`. -/
theorem C8_witness :
    (augment_and_save_images ["data", "base_data"] badTree ["o"] 2
        zeroRnd).2 =
      some (PyError.openError ["data", "base_data", "bad.jpg"]) :=
  (C8_error_aborts_run ["data", "base_data"] badTree ["o"] 2 zeroRnd
    [(["data", "base_data"], ⟨"g.jpg", some rgbImg⟩)]
    (["data", "base_data"], ⟨"bad.jpg", none⟩)
    [(["data", "base_data"], ⟨"h.png", some rgbImg⟩)]
    rfl (by simp) rfl).1

/-! ## Claim C9: the extension filter -/

/-- Claim C9: a file is processed exactly when its name ends in the
lowercase `.jpg`, `.jpeg` or `.png`; the match is case-sensitive, so a
name ending in `.JPG` or `.PNG` is skipped silently — the run performs
no operation at all for it beyond creating the output directory. -/
theorem C9_extension_filter (pre : List String) (f : SrcFile)
    (out : List String) (k : Nat) (rnd : AugOracle) :
    (matchesExt f.name = true ↔
      (".jpg".data <:+ f.name.data ∨ ".jpeg".data <:+ f.name.data ∨
        ".png".data <:+ f.name.data)) ∧
    (matchesExt "scan.JPG" = false ∧ matchesExt "scan.PNG" = false ∧
      matchesExt "scan.Jpeg" = false ∧ matchesExt "scan.jpg" = true ∧
      matchesExt "scan.jpeg" = true ∧ matchesExt "scan.png" = true) ∧
    (¬(".jpg".data <:+ f.name.data ∨ ".jpeg".data <:+ f.name.data ∨
        ".png".data <:+ f.name.data) →
      augment_and_save_images pre (DirTree.node [f] []) out k rnd =
        ([FsOp.mkdir out], none)) ∧
    ((".jpg".data <:+ f.name.data ∨ ".jpeg".data <:+ f.name.data ∨
        ".png".data <:+ f.name.data) →
      FsOp.read (pre ++ [f.name]) ∈
        (augment_and_save_images pre (DirTree.node [f] []) out k rnd).1) := by
  have hiff : matchesExt f.name = true ↔
      (".jpg".data <:+ f.name.data ∨ ".jpeg".data <:+ f.name.data ∨
        ".png".data <:+ f.name.data) := by
    simp [matchesExt, List.isSuffixOf_iff_suffix, or_assoc]
  refine ⟨hiff, by decide, ?_, ?_⟩
  · intro hn
    have hm : matchesExt f.name = false := by
      cases hv : matchesExt f.name
      · rfl
      · exact absurd (hiff.mp hv) hn
    simp [augment_and_save_images, jobsOf, walk, walkList, runJobs, hm]
  · intro hy
    have hm : matchesExt f.name = true := hiff.mpr hy
    cases hc : f.content with
    | none =>
      simp [augment_and_save_images, jobsOf, walk, walkList, runJobs,
        processFile, hm, hc]
    | some img =>
      simp [augment_and_save_images, jobsOf, walk, walkList, runJobs,
        processFile, hm, hc]

/-- Witness for C9: a run over a tree whose only file is named
`x.JPG` does nothing but create the output directory. -/
theorem C9_witness :
    augment_and_save_images ["d", "base_data"]
        (DirTree.node [⟨"x.JPG", some rgbImg⟩] []) ["o"] 2 zeroRnd =
      ([FsOp.mkdir ["o"]], none) :=
  (C9_extension_filter ["d", "base_data"] ⟨"x.JPG", some rgbImg⟩ ["o"] 2
      zeroRnd).2.2.1 (by decide)

/-! ## Claim C10: walk depth, labels, merging and overwriting -/

/-- A source tree in which the directory basename `x` occurs at two
different depths, holding files with the same name. -/
def mergeTree (img1 img2 : PILImage) : DirTree :=
  DirTree.node []
    [("x", DirTree.node [⟨"m.png", some img1⟩] []),
      ("y", DirTree.node []
        [("x", DirTree.node [⟨"m.png", some img2⟩] [])])]

/-- Claim C10: the walker processes matching files at every depth of
the source tree; the output label of a file is always the basename of
its immediate parent directory — for a file directly in the source
root, the root's own basename; and two files from distinct directories
sharing a basename land in the same label directory, where the
later-walked file overwrites the earlier one under an equal name. -/
theorem C10_depth_and_labels (p : List String) (t : DirTree)
    (out : List String) (k : Nat) (rnd : AugOracle)
    (img img1 img2 : PILImage) :
    (∀ q a, FsOp.write q a ∈ (augment_and_save_images p t out k rnd).1 →
      ∃ e ∈ walk p t, ∃ nm : String, q = out ++ [e.1.getLastD "", nm]) ∧
    (FsOp.write (out ++ ["lbl2", "deep.png"]) (normalize img) ∈
      (augment_and_save_images p
        (DirTree.node []
          [("lbl1", DirTree.node []
            [("lbl2", DirTree.node [⟨"deep.png", some img⟩] [])])])
        out k rnd).1) ∧
    (FsOp.write (out ++ [p.getLastD "", "root.jpg"]) (normalize img) ∈
      (augment_and_save_images p (DirTree.node [⟨"root.jpg", some img⟩] [])
        out k rnd).1) ∧
    (FsOp.write ["o", "x", "m.png"] (normalize img1) ∈
      (augment_and_save_images ["data", "base_data"] (mergeTree img1 img2)
        ["o"] AUGMENTATION_FACTOR rnd).1 ∧
    lastWriteAt
        (augment_and_save_images ["data", "base_data"] (mergeTree img1 img2)
          ["o"] AUGMENTATION_FACTOR rnd).1 ["o", "x", "m.png"] =
      some (normalize img2)) := by
  refine ⟨?_, ?_, ?_, ?_, ?_⟩
  · intro q a hmem
    rcases List.mem_cons.mp hmem with hmem | hmem
    · exact FsOp.noConfusion hmem
    rcases write_mem_runJobs hmem with ⟨jb, hjb, img', _, ⟨nm, rfl⟩, _⟩
    rcases mem_jobsOf hjb with ⟨e, he, h1eq, _, _⟩
    exact ⟨e, he, nm, by rw [h1eq]⟩
  · simp [augment_and_save_images, runJobs, processFile, jobsOf, walk,
      walkList, matchesExt, List.getLastD_concat]
  · simp [augment_and_save_images, runJobs, processFile, jobsOf, walk,
      walkList, matchesExt]
  · simp [augment_and_save_images, runJobs, processFile, jobsOf, walk,
      walkList, mergeTree, matchesExt, AUGMENTATION_FACTOR,
      List.getLastD_concat]
  · rfl

/-- Witness for C10: the deep file of a concrete nested run is written
under the basename of its immediate parent directory. -/
theorem C10_witness :
    FsOp.write (["o"] ++ ["lbl2", "deep.png"]) (normalize rgbImg) ∈
      (augment_and_save_images ["data", "base_data"]
        (DirTree.node []
          [("lbl1", DirTree.node []
            [("lbl2", DirTree.node [⟨"deep.png", some rgbImg⟩] [])])])
        ["o"] 2 zeroRnd).1 :=
  (C10_depth_and_labels ["data", "base_data"] okTree ["o"] 2 zeroRnd
    rgbImg rgbImg rgbImg).2.1

end DataAug
